import Mathlib

/-!
Verification of the debug_mcp repository's core subsystems against its
specification: the Step Functions state-history reconstruction and execution
search engine (`src/debug_mcp/tools/stepfunctions.py`), the CloudWatch Logs
Insights polling loop (`src/debug_mcp/tools/cloudwatch_logs.py`), and the
run-content memory store exposed through the LangSmith registry tools
(`src/debug_mcp/tools/langsmith_registry.py`; the `run_memory` module itself
is absent from the sources and is modelled from the spec where needed).

Python's `re` module is treated as an opaque collaborator: a compiled
case-insensitive regex is modelled as an abstract predicate on strings
together with a validity bit (compilation succeeds or raises `re.error`).
-/

set_option autoImplicit false

/-- `startsWithChars s pat`: `pat` is an initial segment of `s`. -/
def startsWithChars : List Char → List Char → Bool
  | _, [] => true
  | [], _ :: _ => false
  | c :: cs, p :: ps => c == p && startsWithChars cs ps

/-- `hasInfixChars pat s`: `pat` occurs contiguously somewhere in `s`. -/
def hasInfixChars (pat : List Char) : List Char → Bool
  | [] => pat.isEmpty
  | c :: cs => startsWithChars (c :: cs) pat || hasInfixChars pat cs

/-- `pat in s` for Python strings: substring containment. -/
def containsSubstr (s pat : String) : Bool :=
  hasInfixChars pat.toList s.toList

/-- Per-state record built by `parse_state_history`:
`{"inputs": [...], "outputs": [...]}`. -/
structure StateData where
  inputs : List String
  outputs : List String
deriving Repr, DecidableEq

/-- One event of the execution history, as consumed by `parse_state_history`.
`type` is the event-type string; the four option fields model
`stateEnteredEventDetails.name/.input` and `stateExitedEventDetails.name/.output`
(`none` when the key is absent from the event record). -/
structure HistoryEvent where
  type : String
  enteredName : Option String
  enteredInput : Option String
  exitedName : Option String
  exitedOutput : Option String
deriving Repr, DecidableEq

/-- Append `i` to the `inputs` of state `n`, creating the entry at the end on
first touch: the behaviour of `result[state_name]["inputs"].append(...)` on a
`defaultdict` (insertion order preserved). -/
def addInput : List (String × StateData) → String → String → List (String × StateData)
  | [], n, i => [(n, ⟨[i], []⟩)]
  | (k, d) :: rest, n, i =>
    if k = n then (k, ⟨d.inputs ++ [i], d.outputs⟩) :: rest
    else (k, d) :: addInput rest n i

/-- Append `o` to the `outputs` of state `n` (see `addInput`). -/
def addOutput : List (String × StateData) → String → String → List (String × StateData)
  | [], n, o => [(n, ⟨[], [o]⟩)]
  | (k, d) :: rest, n, o =>
    if k = n then (k, ⟨d.inputs, d.outputs ++ [o]⟩) :: rest
    else (k, d) :: addOutput rest n o

/-- Processing of a single history event: the body of the `for` loop of
`parse_state_history`.  `if "StateEntered" in event_type: ... elif
"StateExited" in event_type: ...`, with the Python truthiness guard
`if state_name and state_input` (present and non-empty). -/
def stepEvent (m : List (String × StateData)) (e : HistoryEvent) :
    List (String × StateData) :=
  if containsSubstr e.type "StateEntered" then
    match e.enteredName, e.enteredInput with
    | some n, some i => if n ≠ "" ∧ i ≠ "" then addInput m n i else m
    | _, _ => m
  else if containsSubstr e.type "StateExited" then
    match e.exitedName, e.exitedOutput with
    | some n, some o => if n ≠ "" ∧ o ≠ "" then addOutput m n o else m
    | _, _ => m
  else m

/-- `parse_state_history`: fold the event stream into the mapping from state
name to its ordered `inputs`/`outputs`, represented as an insertion-ordered
association list (Python dicts preserve insertion order). -/
def parseStateHistory (history : List HistoryEvent) : List (String × StateData) :=
  history.foldl stepEvent []

/-- `states[name]` lookup with the empty record as default (a name produced by
the filter loops is always present, so the default is never observable there). -/
def statesFind (states : List (String × StateData)) (n : String) : StateData :=
  match states.find? (fun p => p.1 == n) with
  | some p => p.2
  | none => ⟨[], []⟩

/-- Event `⟨"TaskStateEntered", name, input⟩`. -/
def mkEntered (n i : String) : HistoryEvent :=
  ⟨"TaskStateEntered", some n, some i, none, none⟩

/-- Event `⟨"TaskStateExited", name, output⟩`. -/
def mkExited (n o : String) : HistoryEvent :=
  ⟨"TaskStateExited", none, none, some n, some o⟩

/-- All payloads recorded in the mapping are non-empty strings. -/
def PayloadsOk (m : List (String × StateData)) : Prop :=
  ∀ q ∈ m, (∀ p ∈ q.2.inputs, p ≠ "") ∧ (∀ p ∈ q.2.outputs, p ≠ "")

/-! ## Regex filters and `_matches_filters` -/

/-- A Python regex pattern, as used through `re.compile(p, re.IGNORECASE)`:
the `re` module is an opaque collaborator, so a pattern is modelled by whether
it compiles (`valid`) and by the compiled case-insensitive matcher's behaviour
(`search s` is `re.search`'s success on `s`). -/
structure RegexPat where
  valid : Bool
  search : String → Bool

/-- `re.compile(p, re.IGNORECASE)`: yields the matcher, or raises `re.error`
for an invalid pattern. -/
def compilePat (p : RegexPat) : Except String (String → Bool) :=
  if p.valid then .ok p.search else .error "re.error: invalid pattern"

/-- Output-pattern check of `_matches_filters` (the third block): `True` if no
`output_pattern` is given, otherwise whether some state in `toCheck` has an
output payload matched by the compiled pattern. -/
def checkOutputPattern (states : List (String × StateData)) (toCheck : List String)
    (outputPattern : Option RegexPat) : Except String Bool :=
  match outputPattern with
  | none => .ok true
  | some p =>
    match compilePat p with
    | .error e => .error e
    | .ok f => .ok (toCheck.any (fun s => (statesFind states s).outputs.any f))

/-- Input-pattern check of `_matches_filters` (the second block), continuing
into the output check only when it passes. -/
def checkInputPattern (states : List (String × StateData)) (toCheck : List String)
    (inputPattern outputPattern : Option RegexPat) : Except String Bool :=
  match inputPattern with
  | none => checkOutputPattern states toCheck outputPattern
  | some p =>
    match compilePat p with
    | .error e => .error e
    | .ok f =>
      if toCheck.any (fun s => (statesFind states s).inputs.any f) then
        checkOutputPattern states toCheck outputPattern
      else .ok false

/-- `_matches_filters(states, state_name, input_pattern, output_pattern)`.
The `Except` channel carries a raised `re.error`; `.ok b` is the returned
boolean.  Mirrors the control flow: the state-name filter narrows the
candidate set (early `False` when empty), then the input and output patterns
are checked against the candidates. -/
def matchesFilters (states : List (String × StateData))
    (stateName inputPattern outputPattern : Option RegexPat) : Except String Bool :=
  match stateName with
  | some p =>
    match compilePat p with
    | .error e => .error e
    | .ok f =>
      let matching := (states.map Prod.fst).filter f
      if matching.isEmpty then .ok false
      else checkInputPattern states matching inputPattern outputPattern
  | none => checkInputPattern states (states.map Prod.fst) inputPattern outputPattern

/-- The spec's reading of the filter semantics (§4.6 step 4, claim C1),
written declaratively: candidates are the name-matching states (all states
when no name filter); an execution passes iff the name filter found a
candidate and each given pattern is matched by some candidate's
input/output payload.  Stated over patterns, not over the code's control
flow; compared against `matchesFilters`. -/
def filtersSpec (states : List (String × StateData))
    (stateName inputPattern outputPattern : Option RegexPat) : Prop :=
  let keys := states.map Prod.fst
  let candidates := match stateName with
    | some p => keys.filter p.search
    | none => keys
  (stateName ≠ none → candidates ≠ []) ∧
  (∀ q, inputPattern = some q →
    ∃ s ∈ candidates, ∃ i ∈ (statesFind states s).inputs, q.search i) ∧
  (∀ q, outputPattern = some q →
    ∃ s ∈ candidates, ∃ o ∈ (statesFind states s).outputs, q.search o)

/-! ## `search_executions` -/

/-- One execution as produced by `list_executions` (name, ARN, status,
start date, console link). -/
structure ExecBase where
  name : String
  arn : String
  status : String
  startDate : String
  link : String
deriving Repr, DecidableEq

/-- Result of `get_execution_details` as far as `search_executions` consumes
it: the parsed state history plus the execution-level fields it copies. -/
structure ExecDetails where
  states : List (String × StateData)
  input : String
  output : Option String
  error : Option String
  cause : Option String

/-- One element of `search_executions`' result list: the listed execution
dict after enrichment/merging (`execution["states"] = ...`,
`execution.update(details)`, optional `stateMachineDefinition`). -/
structure ExecOut where
  base : ExecBase
  states : List (String × StateData)
  input : Option String
  output : Option String
  error : Option String
  cause : Option String
  defn : Option String

/-- Collaborator calls made by `search_executions`, recorded for counting:
one `defFetch` per `get_state_machine_definition` call, one `detailFetch` per
`get_execution_details` call. -/
inductive CallEv where
  | defFetch
  | detailFetch (arn : String)
deriving Repr, DecidableEq

/-- The two collaborators `search_executions` uses after listing:
`get_execution_details` (may raise, modelled by `Except`) and
`get_state_machine_definition` (likewise). -/
structure SfEnv where
  getDetails : String → Except String ExecDetails
  getDefinition : Except String String

/-- Unfiltered-path body (`search_executions` lines 256-277): enrich each
listed execution with its state history; on a detail-fetch exception record
empty states and the placeholder error instead.  Returns the enriched
execution and the detail-fetch call event. -/
def enrichExecution (env : SfEnv) (defnOpt : Option String) (e : ExecBase) :
    ExecOut × CallEv :=
  match env.getDetails e.arn with
  | .ok d =>
    (⟨e, d.states, some d.input, d.output, d.error, d.cause, defnOpt⟩,
      .detailFetch e.arn)
  | .error msg =>
    (⟨e, [], none, none, some ("Failed to retrieve history: " ++ msg), none, none⟩,
      .detailFetch e.arn)

/-- Filtered-path body (`search_executions` lines 280-302): fetch details,
apply `_matches_filters`, keep the merged execution on a match; any exception
(detail fetch or `re.error` from the filters) skips the execution. -/
def filterExecution (env : SfEnv) (defnOpt : Option String)
    (stateName inputPattern outputPattern : Option RegexPat) (e : ExecBase) :
    Option ExecOut × CallEv :=
  match env.getDetails e.arn with
  | .ok d =>
    (match matchesFilters d.states stateName inputPattern outputPattern with
     | .ok true => some ⟨e, d.states, some d.input, d.output, d.error, d.cause, defnOpt⟩
     | .ok false => none
     | .error _ => none,
      .detailFetch e.arn)
  | .error _ => (none, .detailFetch e.arn)

/-- The one-time `get_state_machine_definition` fetch of `search_executions`
(exception swallowed, `definition = None` on failure), with its call event. -/
def fetchDefn (env : SfEnv) (includeDefinition : Bool) :
    Option String × List CallEv :=
  if includeDefinition then
    (match env.getDefinition with
     | .ok d => some d
     | .error _ => none,
     [.defFetch])
  else (none, [])

/-- `search_executions(state_machine_arn, ...)` from the point where the
executions have been listed (`executions` is `list_executions`' result).
Returns the result list together with the trace of collaborator calls.
Mirrors: the one-time definition fetch (exception swallowed), the unfiltered
fast path when no content filter is given, and the filtered path otherwise. -/
def searchExecutions (env : SfEnv) (executions : List ExecBase)
    (stateName inputPattern outputPattern : Option RegexPat)
    (includeDefinition : Bool) : List ExecOut × List CallEv :=
  let defnFetch := fetchDefn env includeDefinition
  let defnOpt := defnFetch.1
  if stateName.isNone && inputPattern.isNone && outputPattern.isNone then
    let enriched := executions.map (enrichExecution env defnOpt)
    (enriched.map Prod.fst, defnFetch.2 ++ enriched.map Prod.snd)
  else
    let processed :=
      executions.map (filterExecution env defnOpt stateName inputPattern outputPattern)
    (processed.filterMap Prod.fst, defnFetch.2 ++ processed.map Prod.snd)

/-! ## CloudWatch Logs Insights polling (`execute_log_insights_query`) -/

/-- One raw result field, `{"field": ..., "value": ...}`. -/
structure FieldVal where
  field : String
  value : String
deriving Repr, DecidableEq

/-- What `get_query_results` reports on one poll: the status string and the
raw result lines. -/
structure PollResult where
  status : String
  results : List (List FieldVal)

/-- The terminal statuses of the polling loop:
`if status in {"Complete", "Failed", "Cancelled"}`. -/
def terminalStatuses : List String := ["Complete", "Failed", "Cancelled"]

/-- Line processing `{field["field"]: field["value"] for field in line}`
applied to every result line. -/
def processResults (rs : List (List FieldVal)) : List (List (String × String)) :=
  rs.map (fun line => line.map (fun fv => (fv.field, fv.value)))

/-- Outcome of `execute_log_insights_query`'s polling phase: the returned
status and processed results, plus how many times `get_query_results` was
called (each call preceded by one `asyncio.sleep(1)`, so `polls` also counts
the one-second sleeps; real time itself is outside the embedding). -/
structure QueryPollOut where
  status : String
  results : List (List (String × String))
  polls : Nat
deriving Repr, DecidableEq

/-- The `while waited < max_wait` loop: sleep, increment `waited`, poll
(`getRes waited` is the poll made when the counter has that value), return on
a terminal status; past the ceiling return the `Timeout` result with an empty
results list. -/
def pollLoop (getRes : Nat → PollResult) (waited maxWait : Nat) : QueryPollOut :=
  if waited < maxWait then
    let w := waited + 1
    let r := getRes w
    if terminalStatuses.contains r.status then
      ⟨r.status, processResults r.results, w⟩
    else pollLoop getRes w maxWait
  else ⟨"Timeout", [], waited⟩
termination_by maxWait - waited

/-- `execute_log_insights_query` after `start_query`: poll up to 30 times. -/
def executeInsightsQuery (getRes : Nat → PollResult) : QueryPollOut :=
  pollLoop getRes 0 30

/-! ## Run-content memory store: JSON values, chunker, field lookup

The `run_memory` module is not among the sources; the Chunker and the store's
`get_field` are modelled from the spec (§4.1, §4.4, §6). -/

/-- A JSON-like value (the shape of `full_data`). -/
inductive Jval where
  | str (s : String)
  | num (n : Int)
  | bool (b : Bool)
  | null
  | arr (xs : List Jval)
  | obj (kvs : List (String × Jval))
deriving Repr

/-- `joinChars xss`: the segments interleaved with `'.'` separators. -/
def joinChars : List (List Char) → List Char
  | [] => []
  | [x] => x
  | x :: y :: rest => x ++ '.' :: joinChars (y :: rest)

/-- Split on `'.'`, Python-style: the empty list of characters yields one
empty segment, as `"".split(".") == [""]`. -/
def splitChars : List Char → List (List Char)
  | [] => [[]]
  | c :: cs =>
    if c = '.' then [] :: splitChars cs
    else
      match splitChars cs with
      | [] => [[c]]
      | s :: ss => (c :: s) :: ss

/-- Dot-join a segment list into a path string. -/
def joinSegs (segs : List String) : String :=
  ⟨joinChars (segs.map String.toList)⟩

/-- Python's `path.split(".")`. -/
def pySplit (p : String) : List String :=
  (splitChars p.toList).map (fun cs => ⟨cs⟩)

/-- Path-to-segments for field resolution; the empty path addresses the root
(model choice for the spec's dot-path grammar, which never produces an empty
segment for a non-root position). -/
def splitPath (p : String) : List String :=
  if p = "" then [] else pySplit p

/-- Decimal digit character (`0`..`9`). -/
def digitChar (d : Nat) : Char := Char.ofNat (48 + d)

/-- Little-endian decimal digits of a natural number. -/
def toDigitsRev (n : Nat) : List Nat :=
  if _ : n < 10 then [n] else n % 10 :: toDigitsRev (n / 10)
termination_by n
decreasing_by exact Nat.div_lt_self (by omega) (by omega)

/-- Decimal rendering of a sequence index (`str(i)` in the path grammar). -/
def natToStr (n : Nat) : String :=
  ⟨((toDigitsRev n).reverse).map digitChar⟩

/-- Value of a decimal digit character, `none` for a non-digit. -/
def digitVal? (c : Char) : Option Nat :=
  if '0' ≤ c ∧ c ≤ '9' then some (c.toNat - 48) else none

/-- Accumulating decimal parser over characters. -/
def parseDigits (acc : Nat) : List Char → Option Nat
  | [] => some acc
  | c :: cs =>
    match digitVal? c with
    | some d => parseDigits (acc * 10 + d) cs
    | none => none

/-- `int(s)` on a non-negative decimal segment; `none` when `s` is empty or
holds a non-digit. -/
def parseNat? (s : String) : Option Nat :=
  if s.toList.isEmpty then none else parseDigits 0 s.toList

/-- Modelled from the spec: the Chunker (§4.1) on segment lists — one
`(path, text)` pair per reachable string leaf, numeric segments for sequence
elements, non-string leaves skipped, recursion depth bounded by the fuel
`d`. -/
def chunkSegs : Nat → List String → Jval → List (List String × String)
  | 0, _, _ => []
  | _ + 1, pre, .str s => [(pre, s)]
  | _ + 1, _, .num _ => []
  | _ + 1, _, .bool _ => []
  | _ + 1, _, .null => []
  | d + 1, pre, .arr xs =>
    xs.enum.flatMap (fun p => chunkSegs d (pre ++ [natToStr p.1]) p.2)
  | d + 1, pre, .obj kvs =>
    kvs.flatMap (fun p => chunkSegs d (pre ++ [p.1]) p.2)

/-- Modelled from the spec: the chunk sequence of a stored value (§3), with
dot-joined path strings. -/
def chunksOf (d : Nat) (x : Jval) : List (String × String) :=
  (chunkSegs d [] x).map (fun pt => (joinSegs pt.1, pt.2))

/-- Modelled from the spec: `get_field` path resolution (§4.4) on a segment
list — mapping keys for objects, numeric indices for sequences, not-found on a
missing or type-mismatched segment. -/
def getFieldSegs : Jval → List String → Option Jval
  | v, [] => some v
  | v, s :: rest =>
    match v with
    | .obj kvs =>
      match kvs.find? (fun p => p.1 == s) with
      | some p => getFieldSegs p.2 rest
      | none => none
    | .arr xs =>
      match parseNat? s with
      | some i =>
        match xs[i]? with
        | some x => getFieldSegs x rest
        | none => none
      | none => none
    | _ => none

/-- Modelled from the spec: `get_field` on a dot-notation path string. -/
def getField (x : Jval) (p : String) : Option Jval :=
  getFieldSegs x (splitPath p)

/-- JSON-like values whose object keys are unambiguous for dot-paths: within
every object, keys are pairwise distinct (Python dicts), non-empty, and free
of the `'.'` separator. -/
inductive WellKeys : Jval → Prop where
  | str (s : String) : WellKeys (.str s)
  | num (n : Int) : WellKeys (.num n)
  | bool (b : Bool) : WellKeys (.bool b)
  | null : WellKeys .null
  | arr (xs : List Jval) (h : ∀ x ∈ xs, WellKeys x) : WellKeys (.arr xs)
  | obj (kvs : List (String × Jval))
      (hnd : (kvs.map Prod.fst).Nodup)
      (hk : ∀ p ∈ kvs, p.1 ≠ "" ∧ '.' ∉ p.1.toList)
      (hv : ∀ p ∈ kvs, WellKeys p.2) : WellKeys (.obj kvs)

/-- A path segment is unambiguous for dot-joining when it is non-empty and
contains no separator. -/
def SegOk (s : String) : Prop := s ≠ "" ∧ '.' ∉ s.toList

/-- Little-endian value of a decimal digit list. -/
def valRev : List Nat → Nat
  | [] => 0
  | d :: ds => d + 10 * valRev ds

/-- One structural step into a JSON-like value: an object key or a sequence
index. -/
inductive PathStep where
  | key (k : String)
  | idx (i : Nat)

/-- The path-grammar rendering of a structural step (§4.1: dot-separated,
numeric indices for sequence elements). -/
def renderStep : PathStep → String
  | .key k => k
  | .idx i => natToStr i

/-- `LeafAt x steps t`: the value `x` has the string leaf `t` at the
structural position `steps`.  This is the spec-side notion of a "string
leaf" used to state chunk coverage. -/
inductive LeafAt : Jval → List PathStep → String → Prop where
  | here (t : String) : LeafAt (.str t) [] t
  | inArr {xs : List Jval} {i : Nat} {y : Jval} {p : List PathStep} {t : String} :
      xs[i]? = some y → LeafAt y p t → LeafAt (.arr xs) (.idx i :: p) t
  | inObj {kvs : List (String × Jval)} {k : String} {v : Jval}
      {p : List PathStep} {t : String} :
      (k, v) ∈ kvs → LeafAt v p t → LeafAt (.obj kvs) (.key k :: p) t

/-- A value whose object keys contain a `'.'`, making dot-paths ambiguous:
the chunk path `a.b` denotes both the leaf under the dotted key `a.b` and
the leaf `b` inside the object at key `a`. -/
def chunkCexVal : Jval :=
  .obj [("a", .obj [("b", .str "y")]), ("a.b", .str "x")]

/-! ## Registry tools over the memory store (`langsmith_registry.py`) -/

/-- Modelled from the spec: the Run Memory Store's key→StoredRun mapping
(§4.4), reduced to the part the registry tools consume: reference id →
`full_data`. -/
def MemStore : Type := List (String × Jval)

/-- Modelled from the spec: `get(reference_id)` — pure lookup, not-found as
`none`, never an exception. -/
def memGet (store : MemStore) (rid : String) : Option Jval :=
  match store.find? (fun p => p.1 == rid) with
  | some p => some p.2
  | none => none

/-- Modelled from the spec: the reference ids reported by
`list_stored_runs()`, as consumed by the registry tools
(`[r["reference_id"] for r in memory.list_stored_runs()]`). -/
def listStoredRunIds (store : MemStore) : List String :=
  store.map Prod.fst

/-- Result of `get_run_field`: either of the two not-found data results (the
dicts with `"error": True`) or the found value; the function body has no
raise and the store's lookups return data, so no exception channel exists. -/
inductive RunFieldRes where
  | missingRun (hint : String) (availableRuns : List String)
  | missingField (parentPath : String) (availableKeys : List String) (hint : String)
  | found (value : Jval)

/-- `list(parent.keys())[:20]` / index suggestions for a list, `[]` when the
parent is absent or not a container (`isinstance` checks both fail). -/
def parentKeys : Option Jval → List String
  | some (.obj kvs) => (kvs.map Prod.fst).take 20
  | some (.arr xs) => (List.range (min xs.length 20)).map natToStr
  | _ => []

/-- The parent path computed by `get_run_field_registry`:
`".".join(parts[:-1]) if len(parts) > 1 else ""` over Python's
`field_path.split(".")`. -/
def parentPathOf (path : String) : String :=
  let parts := pySplit path
  if parts.length > 1 then joinSegs parts.dropLast else ""

/-- The parent container inspected for suggestions: `get_field` at the parent
path when it is non-empty, else the run's `full_data`. -/
def parentOf (data : Jval) (path : String) : Option Jval :=
  let pp := parentPathOf path
  if pp ≠ "" then getField data pp else some data

/-- `get_run_field_registry(reference_id, field_path)` (lines 562-611): a
missing run yields the available-runs hint dict; a missing field yields the
parent-path/available-keys hint dict; otherwise the value is returned. -/
def getRunField (store : MemStore) (rid path : String) : RunFieldRes :=
  match memGet store rid with
  | none =>
    .missingRun ("No stored run found for reference_id: " ++ rid)
      (listStoredRunIds store)
  | some data =>
    match getField data path with
    | some v => .found v
    | none =>
      let pp := parentPathOf path
      .missingField (if pp = "" then "(root)" else pp)
        (parentKeys (parentOf data path))
        ("Field not found at path: " ++ path)

/-- Result of `search_run_content`: the missing-run data result, or the
search outcome (whose internals delegate to the store's search methods). -/
inductive SearchContentRes where
  | missingRun (hint : String) (availableRuns : List String)
  | results (method : String) (hits : List (String × String))

/-- `search_run_content_registry(reference_id, query, ...)` (lines 495-536)
with the store's two search methods passed as collaborators (`simFn` may
return no hits, in which case auto mode falls back to keyword search). -/
def searchRunContent (store : MemStore)
    (simFn kwFn : Jval → String → List (String × String))
    (rid query : String) : SearchContentRes :=
  match memGet store rid with
  | none =>
    .missingRun ("No stored run found for reference_id: " ++ rid)
      (listStoredRunIds store)
  | some data =>
    let sim := simFn data query
    if !sim.isEmpty then .results "semantic_similarity" sim
    else .results "keyword" (kwFn data query)

/-! ## Lemmas about `parse_state_history` -/

theorem statesFind_cons_ne {k n : String} (d : StateData)
    (m : List (String × StateData)) (h : k ≠ n) :
    statesFind ((k, d) :: m) n = statesFind m n := by
  have hb : (k == n) = false := by simp [h]
  simp [statesFind, List.find?, hb]

theorem statesFind_addInput (m : List (String × StateData)) (n i : String) :
    statesFind (addInput m n i) n =
      ⟨(statesFind m n).inputs ++ [i], (statesFind m n).outputs⟩ := by
  induction m with
  | nil => simp [addInput, statesFind, List.find?]
  | cons hd tl ih =>
    obtain ⟨k, dd⟩ := hd
    by_cases hk : k = n
    · subst hk
      simp [addInput, statesFind, List.find?]
    · rw [addInput]
      simp only [if_neg hk]
      rw [statesFind_cons_ne dd tl hk, statesFind_cons_ne _ _ hk, ih]

theorem statesFind_addOutput (m : List (String × StateData)) (n o : String) :
    statesFind (addOutput m n o) n =
      ⟨(statesFind m n).inputs, (statesFind m n).outputs ++ [o]⟩ := by
  induction m with
  | nil => simp [addOutput, statesFind, List.find?]
  | cons hd tl ih =>
    obtain ⟨k, dd⟩ := hd
    by_cases hk : k = n
    · subst hk
      simp [addOutput, statesFind, List.find?]
    · rw [addOutput]
      simp only [if_neg hk]
      rw [statesFind_cons_ne dd tl hk, statesFind_cons_ne _ _ hk, ih]

theorem stepEvent_mkEntered (m : List (String × StateData)) (n i : String)
    (hn : n ≠ "") (hi : i ≠ "") :
    stepEvent m (mkEntered n i) = addInput m n i := by
  have h : stepEvent m (mkEntered n i) =
      if n ≠ "" ∧ i ≠ "" then addInput m n i else m := rfl
  rw [h, if_pos ⟨hn, hi⟩]

theorem stepEvent_mkExited (m : List (String × StateData)) (n o : String)
    (hn : n ≠ "") (ho : o ≠ "") :
    stepEvent m (mkExited n o) = addOutput m n o := by
  have h : stepEvent m (mkExited n o) =
      if n ≠ "" ∧ o ≠ "" then addOutput m n o else m := rfl
  rw [h, if_pos ⟨hn, ho⟩]

/-- C2: only `StateEntered`/`StateExited` family events contribute to
`parse_state_history`; each significant event appends its payload to the
named state's `inputs` (entered) or `outputs` (exited) preserving arrival
order; and the spec's six-event example reconstructs to
`A.inputs=[i1,i3], A.outputs=[o1,o3], B.inputs=[i2], B.outputs=[o2]`. -/
theorem parse_state_history_append_order :
    (∀ (m : List (String × StateData)) (e : HistoryEvent),
      containsSubstr e.type "StateEntered" = false →
      containsSubstr e.type "StateExited" = false → stepEvent m e = m) ∧
    (∀ (evs : List HistoryEvent) (n i : String), n ≠ "" → i ≠ "" →
      statesFind (parseStateHistory (evs ++ [mkEntered n i])) n =
        ⟨(statesFind (parseStateHistory evs) n).inputs ++ [i],
         (statesFind (parseStateHistory evs) n).outputs⟩) ∧
    (∀ (evs : List HistoryEvent) (n o : String), n ≠ "" → o ≠ "" →
      statesFind (parseStateHistory (evs ++ [mkExited n o])) n =
        ⟨(statesFind (parseStateHistory evs) n).inputs,
         (statesFind (parseStateHistory evs) n).outputs ++ [o]⟩) ∧
    parseStateHistory
        [mkEntered "A" "i1", mkEntered "B" "i2", mkExited "A" "o1",
         mkEntered "A" "i3", mkExited "B" "o2", mkExited "A" "o3"] =
      [("A", ⟨["i1", "i3"], ["o1", "o3"]⟩), ("B", ⟨["i2"], ["o2"]⟩)] := by
  refine ⟨?_, ?_, ?_, by rfl⟩
  · intro m e h1 h2
    rw [stepEvent, if_neg (by simp [h1]), if_neg (by simp [h2])]
  · intro evs n i hn hi
    rw [parseStateHistory, List.foldl_append]
    simp only [List.foldl_cons, List.foldl_nil]
    rw [stepEvent_mkEntered _ _ _ hn hi, statesFind_addInput]
    rfl
  · intro evs n o hn ho
    rw [parseStateHistory, List.foldl_append]
    simp only [List.foldl_cons, List.foldl_nil]
    rw [stepEvent_mkExited _ _ _ hn ho, statesFind_addOutput]
    rfl

theorem payloadsOk_addInput {m : List (String × StateData)} {n i : String}
    (hm : PayloadsOk m) (hi : i ≠ "") : PayloadsOk (addInput m n i) := by
  induction m with
  | nil =>
    intro q hq
    simp only [addInput, List.mem_singleton] at hq
    subst hq
    refine ⟨?_, by simp⟩
    intro p hp
    simp only [List.mem_singleton] at hp
    simpa [hp] using hi
  | cons hd tl ih =>
    obtain ⟨k, dd⟩ := hd
    have hhd := hm (k, dd) (by simp)
    have htl : PayloadsOk tl := fun q hq => hm q (by simp [hq])
    by_cases hk : k = n
    · intro q hq
      rw [addInput, if_pos hk] at hq
      rcases List.mem_cons.mp hq with h | h
      · subst h
        refine ⟨?_, hhd.2⟩
        intro p hp
        rcases List.mem_append.mp hp with h' | h'
        · exact hhd.1 p h'
        · simpa [List.mem_singleton.mp h'] using hi
      · exact htl q h
    · intro q hq
      rw [addInput, if_neg hk] at hq
      rcases List.mem_cons.mp hq with h | h
      · subst h; exact hhd
      · exact ih htl q h

theorem payloadsOk_addOutput {m : List (String × StateData)} {n o : String}
    (hm : PayloadsOk m) (ho : o ≠ "") : PayloadsOk (addOutput m n o) := by
  induction m with
  | nil =>
    intro q hq
    simp only [addOutput, List.mem_singleton] at hq
    subst hq
    refine ⟨by simp, ?_⟩
    intro p hp
    simp only [List.mem_singleton] at hp
    simpa [hp] using ho
  | cons hd tl ih =>
    obtain ⟨k, dd⟩ := hd
    have hhd := hm (k, dd) (by simp)
    have htl : PayloadsOk tl := fun q hq => hm q (by simp [hq])
    by_cases hk : k = n
    · intro q hq
      rw [addOutput, if_pos hk] at hq
      rcases List.mem_cons.mp hq with h | h
      · subst h
        refine ⟨hhd.1, ?_⟩
        intro p hp
        rcases List.mem_append.mp hp with h' | h'
        · exact hhd.2 p h'
        · simpa [List.mem_singleton.mp h'] using ho
      · exact htl q h
    · intro q hq
      rw [addOutput, if_neg hk] at hq
      rcases List.mem_cons.mp hq with h | h
      · subst h; exact hhd
      · exact ih htl q h

theorem payloadsOk_stepEvent {m : List (String × StateData)} (e : HistoryEvent)
    (hm : PayloadsOk m) : PayloadsOk (stepEvent m e) := by
  rw [stepEvent]
  by_cases h1 : containsSubstr e.type "StateEntered" = true
  · rw [if_pos h1]
    cases hn : e.enteredName with
    | none => cases e.enteredInput <;> exact hm
    | some n =>
      cases hi : e.enteredInput with
      | none => exact hm
      | some i =>
        show PayloadsOk (if n ≠ "" ∧ i ≠ "" then addInput m n i else m)
        by_cases hni : n ≠ "" ∧ i ≠ ""
        · rw [if_pos hni]; exact payloadsOk_addInput hm hni.2
        · rw [if_neg hni]; exact hm
  · rw [if_neg h1]
    by_cases h2 : containsSubstr e.type "StateExited" = true
    · rw [if_pos h2]
      cases hn : e.exitedName with
      | none => cases e.exitedOutput <;> exact hm
      | some n =>
        cases ho : e.exitedOutput with
        | none => exact hm
        | some o =>
          show PayloadsOk (if n ≠ "" ∧ o ≠ "" then addOutput m n o else m)
          by_cases hno : n ≠ "" ∧ o ≠ ""
          · rw [if_pos hno]; exact payloadsOk_addOutput hm hno.2
          · rw [if_neg hno]; exact hm
    · rw [if_neg h2]; exact hm

theorem payloadsOk_foldl (evs : List HistoryEvent) :
    ∀ (m : List (String × StateData)), PayloadsOk m →
      PayloadsOk (List.foldl stepEvent m evs) := by
  induction evs with
  | nil => intro m hm; simpa using hm
  | cons e tl ih =>
    intro m hm
    exact ih _ (payloadsOk_stepEvent e hm)

/-- C9: an entered/exited event with a missing or empty state name or payload
contributes nothing to `parse_state_history`; consequently every payload in
the result is a non-empty string (and a state entered only with empty inputs
never gains an entry, as the concrete conjuncts illustrate). -/
theorem parse_state_history_truthiness :
    (∀ (m : List (String × StateData)) (e : HistoryEvent),
      containsSubstr e.type "StateEntered" = true →
      (e.enteredName = none ∨ e.enteredName = some "" ∨
        e.enteredInput = none ∨ e.enteredInput = some "") →
      stepEvent m e = m) ∧
    (∀ (m : List (String × StateData)) (e : HistoryEvent),
      containsSubstr e.type "StateEntered" = false →
      containsSubstr e.type "StateExited" = true →
      (e.exitedName = none ∨ e.exitedName = some "" ∨
        e.exitedOutput = none ∨ e.exitedOutput = some "") →
      stepEvent m e = m) ∧
    (∀ (evs : List HistoryEvent) (q : String × StateData),
      q ∈ parseStateHistory evs →
      (∀ p ∈ q.2.inputs, p ≠ "") ∧ (∀ p ∈ q.2.outputs, p ≠ "")) ∧
    parseStateHistory [mkEntered "A" ""] = [] ∧
    parseStateHistory [⟨"TaskStateEntered", none, some "i", none, none⟩] = [] := by
  refine ⟨?_, ?_, ?_, by rfl, by rfl⟩
  · intro m e ht hbad
    rw [stepEvent, if_pos ht]
    rcases hbad with h | h | h | h
    · rw [h]
    · rw [h]
      cases e.enteredInput with
      | none => rfl
      | some i => simp
    · rw [h]; cases e.enteredName <;> rfl
    · rw [h]
      cases e.enteredName with
      | none => rfl
      | some n => simp
  · intro m e ht1 ht2 hbad
    rw [stepEvent, if_neg (by simp [ht1]), if_pos ht2]
    rcases hbad with h | h | h | h
    · rw [h]
    · rw [h]
      cases e.exitedOutput with
      | none => rfl
      | some o => simp
    · rw [h]; cases e.exitedName <;> rfl
    · rw [h]
      cases e.exitedName with
      | none => rfl
      | some n => simp
  · intro evs q hq
    exact payloadsOk_foldl evs [] (by intro q hq; simp at hq) q hq

/-- Witness for `parse_state_history_truthiness` at a concrete instance. -/
theorem parse_state_history_truthiness_witness :
    stepEvent [] ⟨"TaskStateEntered", some "", some "i", none, none⟩ = [] :=
  parse_state_history_truthiness.1 []
    ⟨"TaskStateEntered", some "", some "i", none, none⟩
    (by decide) (Or.inr (Or.inl rfl))

/-! ## Lemmas about `_matches_filters` and `search_executions` -/

theorem compilePat_valid {p : RegexPat} (hp : p.valid = true) :
    compilePat p = .ok p.search := by
  simp [compilePat, hp]

theorem checkOutputPattern_some (states : List (String × StateData))
    (toCheck : List String) {p : RegexPat} (hp : p.valid = true) :
    checkOutputPattern states toCheck (some p) =
      .ok (toCheck.any fun s => (statesFind states s).outputs.any p.search) := by
  rw [checkOutputPattern, compilePat_valid hp]

theorem checkInputPattern_some (states : List (String × StateData))
    (toCheck : List String) {p : RegexPat} (op : Option RegexPat)
    (hp : p.valid = true) :
    checkInputPattern states toCheck (some p) op =
      if toCheck.any (fun s => (statesFind states s).inputs.any p.search) then
        checkOutputPattern states toCheck op
      else .ok false := by
  rw [checkInputPattern, compilePat_valid hp]

theorem matchesFilters_some (states : List (String × StateData))
    {p : RegexPat} (ip op : Option RegexPat) (hp : p.valid = true) :
    matchesFilters states (some p) ip op =
      if ((states.map Prod.fst).filter p.search).isEmpty then .ok false
      else checkInputPattern states ((states.map Prod.fst).filter p.search) ip op := by
  rw [matchesFilters, compilePat_valid hp]

theorem checkOutputPattern_iff (states : List (String × StateData))
    (toCheck : List String) (op : Option RegexPat)
    (ho : ∀ p, op = some p → p.valid = true) :
    checkOutputPattern states toCheck op = .ok true ↔
      (∀ q, op = some q →
        ∃ s ∈ toCheck, ∃ o ∈ (statesFind states s).outputs, q.search o = true) := by
  cases op with
  | none => simp [checkOutputPattern]
  | some p =>
    rw [checkOutputPattern_some states toCheck (ho p rfl)]
    constructor
    · intro h q hq
      obtain rfl : p = q := by injection hq
      have hb : (toCheck.any fun s => (statesFind states s).outputs.any p.search)
          = true := by injection h
      simpa [List.any_eq_true] using hb
    · intro h
      have := h p rfl
      have hb : (toCheck.any fun s => (statesFind states s).outputs.any p.search)
          = true := by simpa [List.any_eq_true] using this
      rw [hb]

theorem checkInputPattern_iff (states : List (String × StateData))
    (toCheck : List String) (ip op : Option RegexPat)
    (hi : ∀ p, ip = some p → p.valid = true)
    (ho : ∀ p, op = some p → p.valid = true) :
    checkInputPattern states toCheck ip op = .ok true ↔
      ((∀ q, ip = some q →
          ∃ s ∈ toCheck, ∃ i ∈ (statesFind states s).inputs, q.search i = true) ∧
       (∀ q, op = some q →
          ∃ s ∈ toCheck, ∃ o ∈ (statesFind states s).outputs, q.search o = true)) := by
  cases ip with
  | none =>
    rw [checkInputPattern, checkOutputPattern_iff states toCheck op ho]
    simp
  | some p =>
    rw [checkInputPattern_some states toCheck op (hi p rfl)]
    by_cases hany :
        (toCheck.any fun s => (statesFind states s).inputs.any p.search) = true
    · rw [if_pos hany, checkOutputPattern_iff states toCheck op ho]
      constructor
      · intro h
        refine ⟨?_, h⟩
        intro q hq
        obtain rfl : p = q := by injection hq
        simpa [List.any_eq_true] using hany
      · exact fun h => h.2
    · rw [if_neg hany]
      constructor
      · intro h; exact absurd h (by simp)
      · intro h
        exact absurd (by simpa [List.any_eq_true] using h.1 p rfl) hany

theorem matchesFilters_iff (states : List (String × StateData))
    (sn ip op : Option RegexPat)
    (hs : ∀ p, sn = some p → p.valid = true)
    (hi : ∀ p, ip = some p → p.valid = true)
    (ho : ∀ p, op = some p → p.valid = true) :
    matchesFilters states sn ip op = .ok true ↔ filtersSpec states sn ip op := by
  cases sn with
  | none =>
    rw [matchesFilters, checkInputPattern_iff states _ ip op hi ho, filtersSpec]
    simp
  | some p =>
    rw [matchesFilters_some states ip op (hs p rfl)]
    by_cases hemp : ((states.map Prod.fst).filter p.search).isEmpty = true
    · rw [if_pos hemp]
      have hnil : (states.map Prod.fst).filter p.search = [] := by
        simpa [List.isEmpty_iff] using hemp
      constructor
      · intro h; exact absurd h (by simp)
      · intro h; exact absurd hnil (h.1 (by simp))
    · rw [if_neg hemp, checkInputPattern_iff states _ ip op hi ho]
      have hnil : (states.map Prod.fst).filter p.search ≠ [] := by
        simpa [List.isEmpty_iff] using hemp
      constructor
      · intro h
        exact ⟨fun _ => hnil, h.1, h.2⟩
      · intro h
        exact ⟨h.2.1, h.2.2⟩

theorem filterExecution_some_iff (env : SfEnv) (defnOpt : Option String)
    (sn ip op : Option RegexPat) (e : ExecBase) (r : ExecOut) :
    (filterExecution env defnOpt sn ip op e).1 = some r ↔
      ∃ d, env.getDetails e.arn = .ok d ∧
        matchesFilters d.states sn ip op = .ok true ∧
        r = ⟨e, d.states, some d.input, d.output, d.error, d.cause, defnOpt⟩ := by
  cases h : env.getDetails e.arn with
  | error msg => simp [filterExecution, h]
  | ok d =>
    cases hm : matchesFilters d.states sn ip op with
    | error msg => simp [filterExecution, h, hm]
    | ok b =>
      cases b
      · simp [filterExecution, h, hm]
      · simp [filterExecution, h, hm, eq_comm]

/-- C1: `_matches_filters` accepts exactly when every given filter passes in
the spec's declarative sense (`filtersSpec`): the name-matching states form
the candidate set (all states without a name filter), the execution is
rejected when that set is empty, and each given input/output pattern must be
matched by some candidate state's input/output payload — AND semantics.
Consequently, in the filtered path of `search_executions` an execution is
accepted into the result iff its detail fetch succeeds and its parsed states
satisfy `filtersSpec`.  (Pattern matching itself is delegated to the opaque
`re` collaborator; validity of the given patterns is assumed here — invalid
patterns are the subject of the separate regex-error claim.) -/
theorem search_executions_filter_semantics (sn ip op : Option RegexPat)
    (hs : ∀ p, sn = some p → p.valid = true)
    (hi : ∀ p, ip = some p → p.valid = true)
    (ho : ∀ p, op = some p → p.valid = true) :
    (∀ states : List (String × StateData),
      matchesFilters states sn ip op = .ok true ↔ filtersSpec states sn ip op) ∧
    (∀ (env : SfEnv) (execs : List ExecBase) (incDef : Bool) (e : ExecBase),
      e ∈ execs → (sn.isNone && ip.isNone && op.isNone) = false →
      ((∃ r ∈ (searchExecutions env execs sn ip op incDef).1, r.base = e) ↔
        ∃ d, env.getDetails e.arn = .ok d ∧ filtersSpec d.states sn ip op)) := by
  refine ⟨fun states => matchesFilters_iff states sn ip op hs hi ho, ?_⟩
  intro env execs incDef e he hfil
  rw [searchExecutions]
  simp only [hfil, Bool.false_eq_true, if_false]
  constructor
  · rintro ⟨r, hr, hbase⟩
    simp only [List.mem_filterMap, List.mem_map] at hr
    obtain ⟨x, ⟨e', he', hx⟩, hxr⟩ := hr
    rw [← hx] at hxr
    obtain ⟨d, hd, hm, hrdef⟩ := (filterExecution_some_iff env _ sn ip op e' r).mp hxr
    have hbe : e' = e := by rw [hrdef] at hbase; exact hbase
    subst hbe
    exact ⟨d, hd, (matchesFilters_iff d.states sn ip op hs hi ho).mp hm⟩
  · rintro ⟨d, hd, hspec⟩
    have hm := (matchesFilters_iff d.states sn ip op hs hi ho).mpr hspec
    refine ⟨⟨e, d.states, some d.input, d.output, d.error, d.cause,
      (fetchDefn env incDef).1⟩, ?_, rfl⟩
    simp only [List.mem_filterMap, List.mem_map]
    exact ⟨filterExecution env (fetchDefn env incDef).1 sn ip op e, ⟨e, he, rfl⟩,
      (filterExecution_some_iff env (fetchDefn env incDef).1 sn ip op e _).mpr
        ⟨d, hd, hm, rfl⟩⟩

/-- Witness for `search_executions_filter_semantics`: a one-execution search
with a state-name filter matching state `A` accepts the execution. -/
theorem search_executions_filter_semantics_witness :
    ∃ r ∈ (searchExecutions
        ⟨fun _ => .ok ⟨[("A", ⟨["i"], ["o"]⟩)], "in", none, none, none⟩,
         .error "unused"⟩
        [⟨"e1", "arn1", "SUCCEEDED", "2024-01-01", "link1"⟩]
        (some ⟨true, fun s => s == "A"⟩) none none false).1,
      r.base = ⟨"e1", "arn1", "SUCCEEDED", "2024-01-01", "link1"⟩ :=
  ((search_executions_filter_semantics
      (some ⟨true, fun s => s == "A"⟩) none none
      (fun p hp => by injection hp with h; rw [← h])
      (fun p hp => by cases hp) (fun p hp => by cases hp)).2
    ⟨fun _ => .ok ⟨[("A", ⟨["i"], ["o"]⟩)], "in", none, none, none⟩,
      .error "unused"⟩
    [⟨"e1", "arn1", "SUCCEEDED", "2024-01-01", "link1"⟩] false
    ⟨"e1", "arn1", "SUCCEEDED", "2024-01-01", "link1"⟩
    (by simp) rfl).mpr
    ⟨⟨[("A", ⟨["i"], ["o"]⟩)], "in", none, none, none⟩, rfl, by
      constructor
      · intro _; decide
      constructor
      · intro q hq; cases hq
      · intro q hq; cases hq⟩

theorem searchExecutions_filtered_eq (env : SfEnv) (execs : List ExecBase)
    (sn ip op : Option RegexPat) (incDef : Bool)
    (h : (sn.isNone && ip.isNone && op.isNone) = false) :
    (searchExecutions env execs sn ip op incDef).1 =
      (execs.map (filterExecution env (fetchDefn env incDef).1 sn ip op)).filterMap
        Prod.fst := by
  rw [searchExecutions]
  simp only [h, Bool.false_eq_true, if_false]

theorem searchExecutions_unfiltered_eq (env : SfEnv) (execs : List ExecBase)
    (sn ip op : Option RegexPat) (incDef : Bool)
    (h : (sn.isNone && ip.isNone && op.isNone) = true) :
    (searchExecutions env execs sn ip op incDef).1 =
      (execs.map (enrichExecution env (fetchDefn env incDef).1)).map Prod.fst := by
  rw [searchExecutions]
  simp only [h, if_true]

theorem enrichExecution_snd (env : SfEnv) (defnOpt : Option String) (e : ExecBase) :
    (enrichExecution env defnOpt e).2 = .detailFetch e.arn := by
  rw [enrichExecution]
  cases env.getDetails e.arn <;> rfl

theorem filterExecution_snd (env : SfEnv) (defnOpt : Option String)
    (sn ip op : Option RegexPat) (e : ExecBase) :
    (filterExecution env defnOpt sn ip op e).2 = .detailFetch e.arn := by
  rw [filterExecution]
  cases env.getDetails e.arn <;> rfl

theorem enrichExecution_ok (env : SfEnv) (defnOpt : Option String) (e : ExecBase)
    {d : ExecDetails} (h : env.getDetails e.arn = .ok d) :
    (enrichExecution env defnOpt e).1 =
      ⟨e, d.states, some d.input, d.output, d.error, d.cause, defnOpt⟩ := by
  rw [enrichExecution, h]

theorem enrichExecution_error (env : SfEnv) (defnOpt : Option String) (e : ExecBase)
    {msg : String} (h : env.getDetails e.arn = .error msg) :
    (enrichExecution env defnOpt e).1 =
      ⟨e, [], none, none, some ("Failed to retrieve history: " ++ msg),
        none, none⟩ := by
  rw [enrichExecution, h]

theorem enrichExecution_base (env : SfEnv) (defnOpt : Option String) (e : ExecBase) :
    (enrichExecution env defnOpt e).1.base = e := by
  rw [enrichExecution]
  cases env.getDetails e.arn <;> rfl

theorem searchExecutions_defFetch_count (env : SfEnv) (execs : List ExecBase)
    (sn ip op : Option RegexPat) (incDef : Bool) :
    ((searchExecutions env execs sn ip op incDef).2).count CallEv.defFetch =
      ((fetchDefn env incDef).2).count CallEv.defFetch := by
  rw [searchExecutions]
  by_cases h : (sn.isNone && ip.isNone && op.isNone) = true
  · simp only [h, if_true, List.count_append]
    have hz : (((execs.map (enrichExecution env (fetchDefn env incDef).1)).map
        Prod.snd).count CallEv.defFetch) = 0 := by
      rw [List.count_eq_zero]
      intro hmem
      simp only [List.mem_map] at hmem
      obtain ⟨x, ⟨e, he, hx⟩, hev⟩ := hmem
      rw [← hx, enrichExecution_snd] at hev
      exact CallEv.noConfusion hev
    omega
  · simp only [h, Bool.false_eq_true, if_false, List.count_append]
    have hz : (((execs.map (filterExecution env (fetchDefn env incDef).1 sn ip op)).map
        Prod.snd).count CallEv.defFetch) = 0 := by
      rw [List.count_eq_zero]
      intro hmem
      simp only [List.mem_map] at hmem
      obtain ⟨x, ⟨e, he, hx⟩, hev⟩ := hmem
      rw [← hx, filterExecution_snd] at hev
      exact CallEv.noConfusion hev
    omega

/-- C3 (counterexample): with one listed execution whose detail fetch
succeeds and a syntactically invalid `state_name` pattern, `search_executions`
returns the empty list — its return type carries no error channel and the
`re.error` raised inside `_matches_filters` is swallowed by the
per-execution `except` handler — contradicting the claim that an invalid
pattern surfaces as a reported error rather than a silent empty result. -/
theorem search_invalid_regex_counterexample :
    (searchExecutions
        ⟨fun _ => .ok ⟨[("A", ⟨["i"], ["o"]⟩)], "in", none, none, none⟩,
         .error "unused"⟩
        [⟨"e1", "arn1", "SUCCEEDED", "2024-01-01", "link1"⟩]
        (some ⟨false, fun _ => false⟩) none none false).1 = [] ∧
    matchesFilters [("A", ⟨["i"], ["o"]⟩)]
        (some ⟨false, fun _ => false⟩) none none =
      .error "re.error: invalid pattern" :=
  ⟨rfl, rfl⟩

theorem compilePat_invalid {p : RegexPat} (hp : p.valid = false) :
    compilePat p = .error "re.error: invalid pattern" := by
  simp [compilePat, hp]

theorem checkOutputPattern_invalid (states : List (String × StateData))
    (toCheck : List String) {r : RegexPat} (hrv : r.valid = false) :
    checkOutputPattern states toCheck (some r) =
      .error "re.error: invalid pattern" := by
  rw [checkOutputPattern, compilePat_invalid hrv]

theorem checkInputPattern_invalid_ip (states : List (String × StateData))
    (toCheck : List String) (op : Option RegexPat) {q : RegexPat}
    (hqv : q.valid = false) :
    checkInputPattern states toCheck (some q) op =
      .error "re.error: invalid pattern" := by
  rw [checkInputPattern, compilePat_invalid hqv]

theorem checkInputPattern_invalid_op (states : List (String × StateData))
    (toCheck : List String) (ip : Option RegexPat) {r : RegexPat}
    (hrv : r.valid = false) :
    checkInputPattern states toCheck ip (some r) = .ok false ∨
    checkInputPattern states toCheck ip (some r) =
      .error "re.error: invalid pattern" := by
  cases ip with
  | none =>
    right
    show checkOutputPattern states toCheck (some r) = _
    exact checkOutputPattern_invalid states toCheck hrv
  | some q =>
    cases hqv : q.valid with
    | false =>
      right
      exact checkInputPattern_invalid_ip states toCheck (some r) hqv
    | true =>
      rw [checkInputPattern_some states toCheck (some r) hqv]
      by_cases hany :
          (toCheck.any fun s => (statesFind states s).inputs.any q.search) = true
      · right
        rw [if_pos hany]
        exact checkOutputPattern_invalid states toCheck hrv
      · left
        rw [if_neg hany]

/-- When any of the three patterns is invalid, `_matches_filters` never
accepts: it either returns `False` before the invalid pattern is compiled
(the empty-candidates or failed-input short circuits) or raises `re.error`
at the compile. -/
theorem matchesFilters_invalid (states : List (String × StateData))
    (sn ip op : Option RegexPat)
    (hbad : (∃ p, sn = some p ∧ p.valid = false) ∨
            (∃ p, ip = some p ∧ p.valid = false) ∨
            (∃ p, op = some p ∧ p.valid = false)) :
    matchesFilters states sn ip op = .ok false ∨
    matchesFilters states sn ip op = .error "re.error: invalid pattern" := by
  rcases hbad with ⟨p, hsn, hpv⟩ | ⟨q, hip, hqv⟩ | ⟨r, hop, hrv⟩
  · subst hsn
    right
    rw [matchesFilters, compilePat_invalid hpv]
  · subst hip
    cases sn with
    | none =>
      right
      rw [matchesFilters]
      exact checkInputPattern_invalid_ip states _ op hqv
    | some p =>
      cases hpv : p.valid with
      | false =>
        right
        rw [matchesFilters, compilePat_invalid hpv]
      | true =>
        rw [matchesFilters_some states (some q) op hpv]
        by_cases hemp : ((states.map Prod.fst).filter p.search).isEmpty = true
        · left
          rw [if_pos hemp]
        · rw [if_neg hemp]
          right
          exact checkInputPattern_invalid_ip states _ op hqv
  · subst hop
    cases sn with
    | none =>
      rw [matchesFilters]
      exact checkInputPattern_invalid_op states _ ip hrv
    | some p =>
      cases hpv : p.valid with
      | false =>
        right
        rw [matchesFilters, compilePat_invalid hpv]
      | true =>
        rw [matchesFilters_some states ip (some r) hpv]
        by_cases hemp : ((states.map Prod.fst).filter p.search).isEmpty = true
        · left
          rw [if_pos hemp]
        · rw [if_neg hemp]
          exact checkInputPattern_invalid_op states _ ip hrv

/-- C3 (amended): when any of `state_name`, `input_pattern` or
`output_pattern` is an invalid regex, no error is surfaced: per execution,
`_matches_filters` either rejects before compiling the invalid pattern or
raises `re.error`, which the per-execution exception handler of the filtered
path catches and skips — so `search_executions` returns a silent empty result
list. -/
theorem search_invalid_regex_silent_skip (sn ip op : Option RegexPat)
    (hbad : (∃ p, sn = some p ∧ p.valid = false) ∨
            (∃ p, ip = some p ∧ p.valid = false) ∨
            (∃ p, op = some p ∧ p.valid = false)) :
    (∀ states : List (String × StateData),
      matchesFilters states sn ip op = .ok false ∨
      matchesFilters states sn ip op = .error "re.error: invalid pattern") ∧
    (∀ (env : SfEnv) (execs : List ExecBase) (incDef : Bool),
      (searchExecutions env execs sn ip op incDef).1 = []) := by
  refine ⟨fun states => matchesFilters_invalid states sn ip op hbad, ?_⟩
  intro env execs incDef
  have hfil : (sn.isNone && ip.isNone && op.isNone) = false := by
    rcases hbad with ⟨p, h, _⟩ | ⟨p, h, _⟩ | ⟨p, h, _⟩ <;> subst h <;> simp
  rw [searchExecutions_filtered_eq env execs sn ip op incDef hfil]
  rw [List.filterMap_eq_nil_iff]
  intro x hx
  simp only [List.mem_map] at hx
  obtain ⟨e, he, hx⟩ := hx
  rw [← hx]
  cases h : env.getDetails e.arn with
  | error msg => simp [filterExecution, h]
  | ok d =>
    rcases matchesFilters_invalid d.states sn ip op hbad with hm | hm <;>
      simp [filterExecution, h, hm]

/-- Witness for `search_invalid_regex_silent_skip`: one concrete invalid
pattern placed in each of the three filter slots in turn. -/
theorem search_invalid_regex_silent_skip_witness :
    (searchExecutions
        ⟨fun _ => .ok ⟨[("B", ⟨["j"], ["k"]⟩)], "in", none, none, none⟩,
         .error "unused"⟩
        [⟨"e2", "arn2", "FAILED", "2024-01-02", "link2"⟩]
        (some ⟨false, fun _ => true⟩) none none true).1 = [] ∧
    (searchExecutions
        ⟨fun _ => .ok ⟨[("B", ⟨["j"], ["k"]⟩)], "in", none, none, none⟩,
         .error "unused"⟩
        [⟨"e2", "arn2", "FAILED", "2024-01-02", "link2"⟩]
        none (some ⟨false, fun _ => true⟩) none true).1 = [] ∧
    (searchExecutions
        ⟨fun _ => .ok ⟨[("B", ⟨["j"], ["k"]⟩)], "in", none, none, none⟩,
         .error "unused"⟩
        [⟨"e2", "arn2", "FAILED", "2024-01-02", "link2"⟩]
        none none (some ⟨false, fun _ => true⟩) true).1 = [] :=
  ⟨(search_invalid_regex_silent_skip (some ⟨false, fun _ => true⟩) none none
      (Or.inl ⟨⟨false, fun _ => true⟩, rfl, rfl⟩)).2
    ⟨fun _ => .ok ⟨[("B", ⟨["j"], ["k"]⟩)], "in", none, none, none⟩,
      .error "unused"⟩
    [⟨"e2", "arn2", "FAILED", "2024-01-02", "link2"⟩] true,
   (search_invalid_regex_silent_skip none (some ⟨false, fun _ => true⟩) none
      (Or.inr (Or.inl ⟨⟨false, fun _ => true⟩, rfl, rfl⟩))).2
    ⟨fun _ => .ok ⟨[("B", ⟨["j"], ["k"]⟩)], "in", none, none, none⟩,
      .error "unused"⟩
    [⟨"e2", "arn2", "FAILED", "2024-01-02", "link2"⟩] true,
   (search_invalid_regex_silent_skip none none (some ⟨false, fun _ => true⟩)
      (Or.inr (Or.inr ⟨⟨false, fun _ => true⟩, rfl, rfl⟩))).2
    ⟨fun _ => .ok ⟨[("B", ⟨["j"], ["k"]⟩)], "in", none, none, none⟩,
      .error "unused"⟩
    [⟨"e2", "arn2", "FAILED", "2024-01-02", "link2"⟩] true⟩

/-- C6: a failing detail fetch never aborts the batch: in the filtered path
the execution is silently omitted, and in the unfiltered path it is still
returned with an empty states mapping and the placeholder error message
`Failed to retrieve history: ...` in place (and no attached definition). -/
theorem search_detail_failure_isolated (env : SfEnv) (execs : List ExecBase)
    (e : ExecBase) (msg : String) (he : e ∈ execs)
    (hf : env.getDetails e.arn = .error msg)
    (sn ip op : Option RegexPat) (incDef : Bool) :
    ((sn.isNone && ip.isNone && op.isNone) = false →
      ∀ r ∈ (searchExecutions env execs sn ip op incDef).1, r.base ≠ e) ∧
    ((sn.isNone && ip.isNone && op.isNone) = true →
      ∃ r ∈ (searchExecutions env execs sn ip op incDef).1,
        r.base = e ∧ r.states = [] ∧
        r.error = some ("Failed to retrieve history: " ++ msg) ∧
        r.defn = none) := by
  constructor
  · intro hfil r hr hbase
    rw [searchExecutions_filtered_eq env execs sn ip op incDef hfil] at hr
    simp only [List.mem_filterMap, List.mem_map] at hr
    obtain ⟨x, ⟨e', he', hx⟩, hxr⟩ := hr
    rw [← hx] at hxr
    obtain ⟨d, hd, hm, hrdef⟩ :=
      (filterExecution_some_iff env _ sn ip op e' r).mp hxr
    rw [hrdef] at hbase
    rw [show e' = e from hbase] at hd
    rw [hf] at hd
    exact Except.noConfusion hd
  · intro hfil
    rw [searchExecutions_unfiltered_eq env execs sn ip op incDef hfil]
    refine ⟨(enrichExecution env (fetchDefn env incDef).1 e).1, ?_, ?_⟩
    · simp only [List.mem_map]
      exact ⟨enrichExecution env (fetchDefn env incDef).1 e, ⟨e, he, rfl⟩, rfl⟩
    · rw [enrichExecution_error env _ e hf]
      exact ⟨rfl, rfl, rfl, rfl⟩

/-- Witness for `search_detail_failure_isolated` at a concrete environment
whose single execution fails its detail fetch. -/
theorem search_detail_failure_isolated_witness :
    ∃ r ∈ (searchExecutions ⟨fun _ => .error "boom", .error "unused"⟩
        [⟨"e1", "arn1", "RUNNING", "2024-01-01", "link1"⟩]
        none none none false).1,
      r.base = ⟨"e1", "arn1", "RUNNING", "2024-01-01", "link1"⟩ ∧
      r.states = [] ∧
      r.error = some ("Failed to retrieve history: " ++ "boom") ∧
      r.defn = none :=
  (search_detail_failure_isolated ⟨fun _ => .error "boom", .error "unused"⟩
      [⟨"e1", "arn1", "RUNNING", "2024-01-01", "link1"⟩]
      ⟨"e1", "arn1", "RUNNING", "2024-01-01", "link1"⟩ "boom"
      (by simp) rfl none none none false).2 rfl

/-- C7: with `include_definition` set, the definition collaborator is called
exactly once however many executions are listed, and the single fetched
definition is attached to every execution in the result whose detail fetch
succeeded (in the filtered path that is every returned execution). -/
theorem search_definition_fetched_once (env : SfEnv) (execs : List ExecBase)
    (sn ip op : Option RegexPat) :
    ((searchExecutions env execs sn ip op true).2.count CallEv.defFetch = 1) ∧
    (∀ defnStr, env.getDefinition = .ok defnStr →
      ∀ r ∈ (searchExecutions env execs sn ip op true).1,
        (∃ d, env.getDetails r.base.arn = .ok d) → r.defn = some defnStr) := by
  constructor
  · rw [searchExecutions_defFetch_count]
    rfl
  · intro defnStr hdef r hr hd
    have hfd : (fetchDefn env true).1 = some defnStr := by
      rw [fetchDefn, hdef]
      rfl
    by_cases hfil : (sn.isNone && ip.isNone && op.isNone) = true
    · rw [searchExecutions_unfiltered_eq env execs sn ip op true hfil] at hr
      simp only [List.mem_map] at hr
      obtain ⟨x, ⟨e, he, hx⟩, hxr⟩ := hr
      obtain ⟨d, hdd⟩ := hd
      have hbase : r.base = e := by
        rw [← hxr, ← hx]
        exact enrichExecution_base env _ e
      rw [hbase] at hdd
      rw [← hxr, ← hx, enrichExecution_ok env _ e hdd, hfd]
    · rw [searchExecutions_filtered_eq env execs sn ip op true
        (Bool.eq_false_iff.mpr hfil)] at hr
      simp only [List.mem_filterMap, List.mem_map] at hr
      obtain ⟨x, ⟨e, he, hx⟩, hxr⟩ := hr
      rw [← hx] at hxr
      obtain ⟨d, hdd, hm, hrdef⟩ :=
        (filterExecution_some_iff env _ sn ip op e r).mp hxr
      rw [hrdef, hfd]

/-- Witness for `search_definition_fetched_once` on a two-execution search. -/
theorem search_definition_fetched_once_witness :
    ((searchExecutions
        ⟨fun _ => .ok ⟨[("A", ⟨["i"], ["o"]⟩)], "in", none, none, none⟩,
         .ok "defn-body"⟩
        [⟨"e1", "arn1", "SUCCEEDED", "2024-01-01", "link1"⟩,
         ⟨"e2", "arn2", "SUCCEEDED", "2024-01-02", "link2"⟩]
        none none none true).2.count CallEv.defFetch = 1) ∧
    (∀ r ∈ (searchExecutions
        ⟨fun _ => .ok ⟨[("A", ⟨["i"], ["o"]⟩)], "in", none, none, none⟩,
         .ok "defn-body"⟩
        [⟨"e1", "arn1", "SUCCEEDED", "2024-01-01", "link1"⟩,
         ⟨"e2", "arn2", "SUCCEEDED", "2024-01-02", "link2"⟩]
        none none none true).1,
      r.defn = some "defn-body") :=
  ⟨(search_definition_fetched_once
      ⟨fun _ => .ok ⟨[("A", ⟨["i"], ["o"]⟩)], "in", none, none, none⟩,
        .ok "defn-body"⟩
      [⟨"e1", "arn1", "SUCCEEDED", "2024-01-01", "link1"⟩,
       ⟨"e2", "arn2", "SUCCEEDED", "2024-01-02", "link2"⟩]
      none none none).1,
   fun r hr =>
    (search_definition_fetched_once
      ⟨fun _ => .ok ⟨[("A", ⟨["i"], ["o"]⟩)], "in", none, none, none⟩,
        .ok "defn-body"⟩
      [⟨"e1", "arn1", "SUCCEEDED", "2024-01-01", "link1"⟩,
       ⟨"e2", "arn2", "SUCCEEDED", "2024-01-02", "link2"⟩]
      none none none).2 "defn-body" rfl r hr
      ⟨⟨[("A", ⟨["i"], ["o"]⟩)], "in", none, none, none⟩, rfl⟩⟩

/-- C10: when the one-time definition fetch raises, the search still
completes normally: the result list is exactly the one produced without
`include_definition`, and no returned execution carries a
`stateMachineDefinition` field. -/
theorem search_definition_failure_ignored (env : SfEnv) (execs : List ExecBase)
    (sn ip op : Option RegexPat) (msg : String)
    (hf : env.getDefinition = .error msg) :
    (searchExecutions env execs sn ip op true).1 =
      (searchExecutions env execs sn ip op false).1 ∧
    (∀ r ∈ (searchExecutions env execs sn ip op true).1, r.defn = none) := by
  have h1 : (fetchDefn env true).1 = none := by
    rw [fetchDefn, hf]
    rfl
  have h0 : (fetchDefn env false).1 = none := rfl
  have heq : (searchExecutions env execs sn ip op true).1 =
      (searchExecutions env execs sn ip op false).1 := by
    by_cases hfil : (sn.isNone && ip.isNone && op.isNone) = true
    · rw [searchExecutions_unfiltered_eq env execs sn ip op true hfil,
        searchExecutions_unfiltered_eq env execs sn ip op false hfil, h1, h0]
    · rw [searchExecutions_filtered_eq env execs sn ip op true
          (Bool.eq_false_iff.mpr hfil),
        searchExecutions_filtered_eq env execs sn ip op false
          (Bool.eq_false_iff.mpr hfil), h1, h0]
  refine ⟨heq, ?_⟩
  intro r hr
  by_cases hfil : (sn.isNone && ip.isNone && op.isNone) = true
  · rw [searchExecutions_unfiltered_eq env execs sn ip op true hfil, h1] at hr
    simp only [List.mem_map] at hr
    obtain ⟨x, ⟨e, he, hx⟩, hxr⟩ := hr
    rw [← hxr, ← hx, enrichExecution]
    cases env.getDetails e.arn <;> rfl
  · rw [searchExecutions_filtered_eq env execs sn ip op true
      (Bool.eq_false_iff.mpr hfil), h1] at hr
    simp only [List.mem_filterMap, List.mem_map] at hr
    obtain ⟨x, ⟨e, he, hx⟩, hxr⟩ := hr
    rw [← hx] at hxr
    obtain ⟨d, hdd, hm, hrdef⟩ :=
      (filterExecution_some_iff env none sn ip op e r).mp hxr
    rw [hrdef]

/-- Witness for `search_definition_failure_ignored` at a concrete failing
definition fetch. -/
theorem search_definition_failure_ignored_witness :
    (searchExecutions
        ⟨fun _ => .ok ⟨[("A", ⟨["i"], ["o"]⟩)], "in", none, none, none⟩,
         .error "AccessDenied"⟩
        [⟨"e1", "arn1", "SUCCEEDED", "2024-01-01", "link1"⟩]
        none none none true).1 =
      (searchExecutions
        ⟨fun _ => .ok ⟨[("A", ⟨["i"], ["o"]⟩)], "in", none, none, none⟩,
         .error "AccessDenied"⟩
        [⟨"e1", "arn1", "SUCCEEDED", "2024-01-01", "link1"⟩]
        none none none false).1 :=
  (search_definition_failure_ignored
      ⟨fun _ => .ok ⟨[("A", ⟨["i"], ["o"]⟩)], "in", none, none, none⟩,
        .error "AccessDenied"⟩
      [⟨"e1", "arn1", "SUCCEEDED", "2024-01-01", "link1"⟩]
      none none none "AccessDenied" rfl).1

/-- C8: the registry lookups over the run memory store never raise — their
result types have no exception channel, matching the Python bodies, which
contain no `raise` and whose store lookups return data.  An unknown
reference id yields the missing-run data result whose hint payload lists
exactly the stored reference ids (for both `get_run_field` and
`search_run_content`), and a missing field path yields the missing-field data
result carrying the parent path and the parent container's available keys;
a successful lookup yields the value.  The unknown-id case is equivalent to
the id being absent from `list_stored_runs`' reference ids. -/
theorem run_lookup_soft_failure (store : MemStore) (rid path query : String)
    (simFn kwFn : Jval → String → List (String × String)) :
    (memGet store rid = none →
      getRunField store rid path =
        .missingRun ("No stored run found for reference_id: " ++ rid)
          (listStoredRunIds store) ∧
      searchRunContent store simFn kwFn rid query =
        .missingRun ("No stored run found for reference_id: " ++ rid)
          (listStoredRunIds store)) ∧
    (∀ data, memGet store rid = some data → getField data path = none →
      getRunField store rid path =
        .missingField
          (if parentPathOf path = "" then "(root)" else parentPathOf path)
          (parentKeys (parentOf data path))
          ("Field not found at path: " ++ path)) ∧
    (∀ data v, memGet store rid = some data → getField data path = some v →
      getRunField store rid path = .found v) ∧
    (memGet store rid = none ↔ rid ∉ listStoredRunIds store) := by
  refine ⟨?_, ?_, ?_, ?_⟩
  · intro h
    constructor
    · rw [getRunField, h]
    · rw [searchRunContent, h]
  · intro data h hfield
    simp only [getRunField, h, hfield]
  · intro data v h hfield
    simp only [getRunField, h, hfield]
  · constructor
    · intro h hmem
      simp only [listStoredRunIds, List.mem_map] at hmem
      obtain ⟨q, hq, hqr⟩ := hmem
      rw [memGet] at h
      cases hf : store.find? (fun p => p.1 == rid) with
      | none =>
        rw [List.find?_eq_none] at hf
        exact absurd (by simp [hqr]) (hf q hq)
      | some q' =>
        rw [hf] at h
        exact Option.noConfusion h
    · intro hmem
      rw [memGet]
      cases hf : store.find? (fun p => p.1 == rid) with
      | none => rfl
      | some q =>
        have hq := List.find?_some hf
        have hm := List.mem_of_find?_eq_some hf
        simp only [beq_iff_eq] at hq
        refine absurd ?_ hmem
        simp only [listStoredRunIds, List.mem_map]
        exact ⟨q, hm, hq⟩

/-- Witness for `run_lookup_soft_failure`: an unknown reference id against a
one-run store, and a missing field path against the stored run. -/
theorem run_lookup_soft_failure_witness :
    (getRunField [("prod:run-1", Jval.obj [("a", Jval.str "x")])] "prod:run-2" "a" =
      .missingRun ("No stored run found for reference_id: " ++ "prod:run-2")
        ["prod:run-1"]) ∧
    (getRunField [("prod:run-1", Jval.obj [("a", Jval.str "x")])] "prod:run-1" "b" =
      .missingField "(root)" ["a"] ("Field not found at path: " ++ "b")) :=
  ⟨((run_lookup_soft_failure [("prod:run-1", Jval.obj [("a", Jval.str "x")])]
      "prod:run-2" "a" "q" (fun _ _ => []) (fun _ _ => [])).1 rfl).1,
   (run_lookup_soft_failure [("prod:run-1", Jval.obj [("a", Jval.str "x")])]
      "prod:run-1" "b" "q" (fun _ _ => []) (fun _ _ => [])).2.1
     (Jval.obj [("a", Jval.str "x")]) rfl rfl⟩

/-! ## Lemmas about the Logs Insights polling loop -/

theorem pollLoop_polls_le (getRes : Nat → PollResult) :
    ∀ (k waited maxWait : Nat), maxWait - waited ≤ k →
      (pollLoop getRes waited maxWait).polls ≤ max waited maxWait := by
  intro k
  induction k with
  | zero =>
    intro waited maxWait h
    have hge : ¬ waited < maxWait := by omega
    rw [pollLoop, if_neg hge]
    exact Nat.le_max_left _ _
  | succ k ih =>
    intro waited maxWait h
    by_cases hlt : waited < maxWait
    · rw [pollLoop, if_pos hlt]
      by_cases ht : terminalStatuses.contains (getRes (waited + 1)).status = true
      · rw [if_pos ht]
        exact le_max_of_le_right hlt
      · rw [if_neg ht]
        have := ih (waited + 1) maxWait (by omega)
        omega
    · rw [pollLoop, if_neg hlt]
      exact Nat.le_max_left _ _

theorem pollLoop_timeout (getRes : Nat → PollResult) :
    ∀ (k waited maxWait : Nat), waited ≤ maxWait → maxWait - waited ≤ k →
      (∀ j, waited < j → j ≤ maxWait →
        terminalStatuses.contains (getRes j).status = false) →
      pollLoop getRes waited maxWait = ⟨"Timeout", [], maxWait⟩ := by
  intro k
  induction k with
  | zero =>
    intro waited maxWait hle h hnt
    have heq : waited = maxWait := by omega
    have hge : ¬ waited < maxWait := by omega
    rw [pollLoop, if_neg hge, heq]
  | succ k ih =>
    intro waited maxWait hle h hnt
    by_cases hlt : waited < maxWait
    · rw [pollLoop, if_pos hlt]
      have ht := hnt (waited + 1) (by omega) (by omega)
      rw [if_neg (by rw [ht]; decide)]
      exact ih (waited + 1) maxWait (by omega) (by omega)
        (fun j hj1 hj2 => hnt j (by omega) hj2)
    · have heq : waited = maxWait := by omega
      rw [pollLoop, if_neg hlt, heq]

/-- C4: the Logs Insights poller calls `get_query_results` at most 30 times
(one unit sleep before each call), treats exactly `Complete`, `Failed` and
`Cancelled` as terminal, and when no poll ever reports a terminal status it
returns `status="Timeout"` with an empty results list after the 30th poll
instead of blocking further or raising. -/
theorem insights_query_poll_bound :
    (∀ getRes : Nat → PollResult, (executeInsightsQuery getRes).polls ≤ 30) ∧
    (∀ s : String, terminalStatuses.contains s = true ↔
      s = "Complete" ∨ s = "Failed" ∨ s = "Cancelled") ∧
    (∀ getRes : Nat → PollResult,
      (∀ j, 1 ≤ j → j ≤ 30 → terminalStatuses.contains (getRes j).status = false) →
      executeInsightsQuery getRes = ⟨"Timeout", [], 30⟩) := by
  refine ⟨?_, ?_, ?_⟩
  · intro getRes
    simpa using pollLoop_polls_le getRes 30 0 30 (by omega)
  · intro s
    simp [terminalStatuses]
  · intro getRes hnt
    exact pollLoop_timeout getRes 30 0 30 (by omega) (by omega)
      (fun j hj1 hj2 => hnt j (by omega) hj2)

/-- Witness for `insights_query_poll_bound`: a query that always reports
`Running` times out after exactly 30 polls. -/
theorem insights_query_poll_bound_witness :
    executeInsightsQuery (fun _ => ⟨"Running", []⟩) = ⟨"Timeout", [], 30⟩ ∧
    (executeInsightsQuery (fun _ => ⟨"Running", []⟩)).polls ≤ 30 :=
  ⟨insights_query_poll_bound.2.2 (fun _ => ⟨"Running", []⟩)
      (fun _ _ _ => rfl),
   insights_query_poll_bound.1 (fun _ => ⟨"Running", []⟩)⟩

/-- Witness for `parse_state_history_append_order` at a concrete event list. -/
theorem parse_state_history_append_order_witness :
    statesFind (parseStateHistory ([mkEntered "A" "x"] ++ [mkEntered "A" "y"])) "A" =
      ⟨(statesFind (parseStateHistory [mkEntered "A" "x"]) "A").inputs ++ ["y"],
       (statesFind (parseStateHistory [mkEntered "A" "x"]) "A").outputs⟩ :=
  parse_state_history_append_order.2.1 [mkEntered "A" "x"] "A" "y"
    (by decide) (by decide)

/-! ## Lemmas about decimal path segments -/

theorem digitVal?_digitChar : ∀ d, d < 10 → digitVal? (digitChar d) = some d := by
  decide

theorem digitChar_ne_dot : ∀ d, d < 10 → digitChar d ≠ '.' := by
  decide

theorem toDigitsRev_ne_nil (n : Nat) : toDigitsRev n ≠ [] := by
  rw [toDigitsRev]
  split <;> simp

theorem toDigitsRev_lt : ∀ n, ∀ d ∈ toDigitsRev n, d < 10 := by
  intro n
  induction n using Nat.strong_induction_on with
  | _ n ih =>
    rw [toDigitsRev]
    split
    · intro d hd
      rw [List.mem_singleton] at hd
      omega
    · intro d hd
      rcases List.mem_cons.mp hd with h | h
      · subst h; exact Nat.mod_lt _ (by omega)
      · exact ih (n / 10) (Nat.div_lt_self (by omega) (by omega)) d h

theorem valRev_toDigitsRev : ∀ n, valRev (toDigitsRev n) = n := by
  intro n
  induction n using Nat.strong_induction_on with
  | _ n ih =>
    rw [toDigitsRev]
    split
    · simp [valRev]
    · rw [valRev, ih (n / 10) (Nat.div_lt_self (by omega) (by omega))]
      omega

theorem parseDigits_append (l1 l2 : List Char) : ∀ acc,
    parseDigits acc (l1 ++ l2) =
      match parseDigits acc l1 with
      | some a => parseDigits a l2
      | none => none := by
  induction l1 with
  | nil => intro acc; rfl
  | cons c cs ih =>
    intro acc
    show parseDigits acc (c :: (cs ++ l2)) = _
    rw [parseDigits, parseDigits]
    cases digitVal? c with
    | none => rfl
    | some d => exact ih _

theorem parseDigits_rev_digits (ds : List Nat) (h : ∀ d ∈ ds, d < 10) : ∀ acc,
    parseDigits acc ((ds.reverse).map digitChar) =
      some (acc * 10 ^ ds.length + valRev ds) := by
  induction ds with
  | nil => intro acc; simp [parseDigits, valRev]
  | cons d ds ih =>
    intro acc
    rw [List.reverse_cons, List.map_append,
      parseDigits_append, ih (fun q hq => h q (by simp [hq]))]
    have hd : digitVal? (digitChar d) = some d :=
      digitVal?_digitChar d (h d (by simp))
    show parseDigits _ [digitChar d] = _
    simp only [parseDigits, hd]
    congr 1
    rw [valRev, List.length_cons, pow_succ]
    ring

theorem parseNat?_natToStr (n : Nat) : parseNat? (natToStr n) = some n := by
  have hne : ((toDigitsRev n).reverse).map digitChar ≠ [] := by
    simp [toDigitsRev_ne_nil n]
  rw [parseNat?, natToStr]
  rw [if_neg (by simpa [List.isEmpty_iff] using hne)]
  have := parseDigits_rev_digits (toDigitsRev n) (toDigitsRev_lt n) 0
  simpa [valRev_toDigitsRev n] using this

theorem natToStr_injective {a b : Nat} (h : natToStr a = natToStr b) : a = b := by
  have ha := parseNat?_natToStr a
  rw [h, parseNat?_natToStr b] at ha
  exact (Option.some.injEq _ _ ▸ ha).symm

theorem natToStr_segOk (n : Nat) : SegOk (natToStr n) := by
  constructor
  · rw [natToStr]
    intro h
    have h2 : ((toDigitsRev n).reverse).map digitChar = [] := congrArg String.toList h
    rw [List.map_eq_nil_iff, List.reverse_eq_nil_iff] at h2
    exact toDigitsRev_ne_nil n h2
  · rw [natToStr]
    intro hmem
    have hmem' : '.' ∈ ((toDigitsRev n).reverse).map digitChar := by
      simpa using hmem
    simp only [List.mem_map, List.mem_reverse] at hmem'
    obtain ⟨d, hd, hdc⟩ := hmem'
    exact digitChar_ne_dot d (toDigitsRev_lt n d hd) hdc

/-! ## Lemmas about dot-joining and splitting of paths -/

theorem splitChars_no_dot : ∀ xs : List Char, '.' ∉ xs → splitChars xs = [xs] := by
  intro xs
  induction xs with
  | nil => intro _; rfl
  | cons c cs ih =>
    intro h
    have hc : ¬ c = '.' := fun hc => h (by simp [hc])
    rw [splitChars, if_neg hc, ih (fun hm => h (by simp [hm]))]

theorem splitChars_append_dot : ∀ xs rest : List Char, '.' ∉ xs →
    splitChars (xs ++ '.' :: rest) = xs :: splitChars rest := by
  intro xs
  induction xs with
  | nil =>
    intro rest _
    show splitChars ('.' :: rest) = [] :: splitChars rest
    rw [splitChars, if_pos rfl]
  | cons c cs ih =>
    intro rest h
    have hc : ¬ c = '.' := fun hc => h (by simp [hc])
    show splitChars (c :: (cs ++ '.' :: rest)) = (c :: cs) :: splitChars rest
    rw [splitChars, if_neg hc, ih rest (fun hm => h (by simp [hm]))]

theorem joinChars_ne_nil : ∀ xss : List (List Char), xss ≠ [] →
    (∀ xs ∈ xss, xs ≠ []) → joinChars xss ≠ [] := by
  intro xss
  match xss with
  | [] => intro h _; exact absurd rfl h
  | [x] =>
    intro _ hx
    rw [joinChars]
    exact hx x (by simp)
  | x :: y :: rest =>
    intro _ _
    rw [joinChars]
    cases x <;> simp

theorem splitChars_joinChars : ∀ xss : List (List Char), xss ≠ [] →
    (∀ xs ∈ xss, '.' ∉ xs) → splitChars (joinChars xss) = xss := by
  intro xss
  induction xss with
  | nil => intro h _; exact absurd rfl h
  | cons x rest ih =>
    intro _ hdot
    cases rest with
    | nil =>
      rw [joinChars]
      exact splitChars_no_dot x (hdot x (by simp))
    | cons y rest' =>
      rw [joinChars, splitChars_append_dot x _ (hdot x (by simp)),
        ih (by simp) (fun xs hxs => hdot xs (by simp [hxs]))]

theorem toList_ne_nil_of_ne_empty {s : String} (h : s ≠ "") : s.toList ≠ [] := by
  intro hl
  apply h
  cases s with
  | mk data =>
    simp only [String.toList] at hl
    simp [hl]

theorem splitPath_joinSegs : ∀ segs : List String, (∀ s ∈ segs, SegOk s) →
    splitPath (joinSegs segs) = segs := by
  intro segs hok
  cases segs with
  | nil => rfl
  | cons s rest =>
    have hne : joinChars ((s :: rest).map String.toList) ≠ [] := by
      apply joinChars_ne_nil _ (by simp)
      intro xs hxs
      simp only [List.mem_map] at hxs
      obtain ⟨q, hq, hql⟩ := hxs
      rw [← hql]
      exact toList_ne_nil_of_ne_empty (hok q hq).1
    have hmkne : joinSegs (s :: rest) ≠ "" := by
      rw [joinSegs]
      intro h
      exact hne (congrArg String.toList h)
    rw [splitPath, if_neg hmkne, pySplit, joinSegs]
    show (splitChars (joinChars ((s :: rest).map String.toList))).map
        (fun cs => String.mk cs) = s :: rest
    rw [splitChars_joinChars _ (by simp)
      (by
        intro xs hxs
        simp only [List.mem_map] at hxs
        obtain ⟨q, hq, hql⟩ := hxs
        rw [← hql]
        exact (hok q hq).2)]
    rw [List.map_map]
    have : (fun cs => String.mk cs) ∘ String.toList = id := by
      funext q
      cases q
      rfl
    rw [this, List.map_id]

/-! ## Lemmas about the chunker and field lookup -/

theorem mem_of_getElem?_eq_some {α : Type} {xs : List α} {i : Nat} {y : α}
    (h : xs[i]? = some y) : y ∈ xs := by
  obtain ⟨hlt, rfl⟩ := List.getElem?_eq_some_iff.mp h
  exact List.getElem_mem hlt

theorem find?_key_of_nodup {kvs : List (String × Jval)} {k : String} {v : Jval}
    (hnd : (kvs.map Prod.fst).Nodup) (hmem : (k, v) ∈ kvs) :
    kvs.find? (fun q => q.1 == k) = some (k, v) := by
  induction kvs with
  | nil => cases hmem
  | cons q rest ih =>
    obtain ⟨k', v'⟩ := q
    simp only [List.map_cons, List.nodup_cons] at hnd
    rcases List.mem_cons.mp hmem with h | h
    · rw [← h]
      exact List.find?_cons_of_pos _ (by simp)
    · have hkmem : k ∈ rest.map Prod.fst := by
        simp only [List.mem_map]
        exact ⟨(k, v), h, rfl⟩
      have hkf : ((k', v').1 == k) = false := by
        simp only [beq_eq_false_iff_ne, ne_eq]
        exact fun he => hnd.1 (he ▸ hkmem)
      rw [List.find?_cons, hkf]
      exact ih hnd.2 h

theorem chunkSegs_shape : ∀ (d : Nat) (x : Jval) (pre : List String)
    (pt : List String × String), pt ∈ chunkSegs d pre x →
    ∃ segs, pt.1 = pre ++ segs := by
  intro d
  induction d with
  | zero => intro x pre pt h; simp [chunkSegs] at h
  | succ d ih =>
    intro x pre pt h
    cases x with
    | str s =>
      simp only [chunkSegs, List.mem_singleton] at h
      exact ⟨[], by simp [h]⟩
    | num n => simp [chunkSegs] at h
    | bool b => simp [chunkSegs] at h
    | null => simp [chunkSegs] at h
    | arr xs =>
      simp only [chunkSegs, List.mem_flatMap] at h
      obtain ⟨p, hp, hpt⟩ := h
      obtain ⟨segs, hs⟩ := ih p.2 (pre ++ [natToStr p.1]) pt hpt
      exact ⟨natToStr p.1 :: segs, by simp [hs]⟩
    | obj kvs =>
      simp only [chunkSegs, List.mem_flatMap] at h
      obtain ⟨p, hp, hpt⟩ := h
      obtain ⟨segs, hs⟩ := ih p.2 (pre ++ [p.1]) pt hpt
      exact ⟨p.1 :: segs, by simp [hs]⟩

theorem chunkSegs_sound : ∀ (d : Nat) (x : Jval) (pre : List String)
    (pt : List String × String), WellKeys x → pt ∈ chunkSegs d pre x →
    ∃ segs, pt.1 = pre ++ segs ∧ getFieldSegs x segs = some (.str pt.2) ∧
      ∀ s ∈ segs, SegOk s := by
  intro d
  induction d with
  | zero => intro x pre pt _ h; simp [chunkSegs] at h
  | succ d ih =>
    intro x pre pt hwk h
    cases x with
    | str s =>
      simp only [chunkSegs, List.mem_singleton] at h
      subst h
      exact ⟨[], by simp, rfl, by simp⟩
    | num n => simp [chunkSegs] at h
    | bool b => simp [chunkSegs] at h
    | null => simp [chunkSegs] at h
    | arr xs =>
      simp only [chunkSegs, List.mem_flatMap] at h
      obtain ⟨⟨i, y⟩, hp, hpt⟩ := h
      have hxy : xs[i]? = some y := List.mk_mem_enum_iff_getElem?.mp hp
      have hymem : y ∈ xs := mem_of_getElem?_eq_some hxy
      have hwy : WellKeys y := by
        cases hwk with
        | arr xs hall => exact hall y hymem
      obtain ⟨segs, h1, h2, h3⟩ := ih y (pre ++ [natToStr i]) pt hwy hpt
      refine ⟨natToStr i :: segs, by simp [h1], ?_, ?_⟩
      · simp only [getFieldSegs, parseNat?_natToStr, hxy]
        exact h2
      · intro s hs
        rcases List.mem_cons.mp hs with h' | h'
        · exact h' ▸ natToStr_segOk i
        · exact h3 s h'
    | obj kvs =>
      simp only [chunkSegs, List.mem_flatMap] at h
      obtain ⟨⟨k, v⟩, hp, hpt⟩ := h
      obtain ⟨hnd, hk, hv⟩ := (by
        cases hwk with
        | obj kvs hnd hk hv => exact ⟨hnd, hk, hv⟩ :
          (kvs.map Prod.fst).Nodup ∧
          (∀ p ∈ kvs, p.1 ≠ "" ∧ '.' ∉ p.1.toList) ∧
          (∀ p ∈ kvs, WellKeys p.2))
      obtain ⟨segs, h1, h2, h3⟩ := ih v (pre ++ [k]) pt (hv (k, v) hp) hpt
      refine ⟨k :: segs, by simp [h1], ?_, ?_⟩
      · simp only [getFieldSegs, find?_key_of_nodup hnd hp]
        exact h2
      · intro s hs
        rcases List.mem_cons.mp hs with h' | h'
        · exact h' ▸ hk (k, v) hp
        · exact h3 s h'

theorem chunkSegs_complete {x : Jval} {steps : List PathStep} {t : String}
    (h : LeafAt x steps t) : ∀ (d : Nat) (pre : List String),
    steps.length < d → (pre ++ steps.map renderStep, t) ∈ chunkSegs d pre x := by
  induction h with
  | here t =>
    intro d pre hlen
    cases d with
    | zero => exact absurd hlen (Nat.not_lt_zero _)
    | succ d => simp [chunkSegs]
  | inArr hxy hp ih =>
    rename_i xs i y p t
    intro d pre hlen
    cases d with
    | zero => exact absurd hlen (Nat.not_lt_zero _)
    | succ d =>
      simp only [chunkSegs, List.mem_flatMap]
      refine ⟨(i, y), List.mk_mem_enum_iff_getElem?.mpr hxy, ?_⟩
      have hlen' : p.length < d := by
        simp only [List.length_cons] at hlen
        omega
      have := ih d (pre ++ [natToStr i]) hlen'
      simpa [renderStep] using this
  | inObj hkv hp ih =>
    rename_i kvs k v p t
    intro d pre hlen
    cases d with
    | zero => exact absurd hlen (Nat.not_lt_zero _)
    | succ d =>
      simp only [chunkSegs, List.mem_flatMap]
      refine ⟨(k, v), hkv, ?_⟩
      have hlen' : p.length < d := by
        simp only [List.length_cons] at hlen
        omega
      have := ih d (pre ++ [k]) hlen'
      simpa [renderStep] using this

theorem chunkSegs_nodup : ∀ (d : Nat) (x : Jval) (pre : List String),
    WellKeys x → ((chunkSegs d pre x).map Prod.fst).Nodup := by
  intro d
  induction d with
  | zero => intro x pre _; simp [chunkSegs]
  | succ d ih =>
    intro x pre hwk
    cases x with
    | str s => simp [chunkSegs]
    | num n => simp [chunkSegs]
    | bool b => simp [chunkSegs]
    | null => simp [chunkSegs]
    | arr xs =>
      have hall : ∀ y ∈ xs, WellKeys y := by
        cases hwk with
        | arr xs hall => exact hall
      simp only [chunkSegs, List.map_flatMap]
      rw [List.nodup_flatMap]
      constructor
      · intro p hp
        exact ih p.2 (pre ++ [natToStr p.1])
          (hall p.2 (mem_of_getElem?_eq_some (List.mk_mem_enum_iff_getElem?.mp
            (show (p.1, p.2) ∈ xs.enum from hp))))
      · have h2 : xs.enum.Pairwise (fun a b => a.1 ≠ b.1) :=
          List.pairwise_map.mp (List.nodup_enum_map_fst xs)
        refine h2.imp ?_
        intro a b hne path hp1 hp2
        obtain ⟨pt1, hpt1, he1⟩ := List.mem_map.mp hp1
        obtain ⟨pt2, hpt2, he2⟩ := List.mem_map.mp hp2
        obtain ⟨g1, hg1⟩ := chunkSegs_shape d a.2 (pre ++ [natToStr a.1]) pt1 hpt1
        obtain ⟨g2, hg2⟩ := chunkSegs_shape d b.2 (pre ++ [natToStr b.1]) pt2 hpt2
        apply hne
        apply natToStr_injective
        have h1' : path = pre ++ natToStr a.1 :: g1 := by
          rw [← he1, hg1]; simp
        have h2' : path = pre ++ natToStr b.1 :: g2 := by
          rw [← he2, hg2]; simp
        have heq : pre ++ natToStr a.1 :: g1 = pre ++ natToStr b.1 :: g2 := by
          rw [← h1', ← h2']
        have hc := List.append_cancel_left heq
        exact (List.cons.injEq .. ▸ hc).1
    | obj kvs =>
      obtain ⟨hnd, hkok, hv⟩ := (by
        cases hwk with
        | obj kvs hnd hk hv => exact ⟨hnd, hk, hv⟩ :
          (kvs.map Prod.fst).Nodup ∧
          (∀ p ∈ kvs, p.1 ≠ "" ∧ '.' ∉ p.1.toList) ∧
          (∀ p ∈ kvs, WellKeys p.2))
      simp only [chunkSegs, List.map_flatMap]
      rw [List.nodup_flatMap]
      constructor
      · intro p hp
        exact ih p.2 (pre ++ [p.1]) (hv p hp)
      · have h2 : kvs.Pairwise (fun a b => a.1 ≠ b.1) :=
          List.pairwise_map.mp hnd
        refine h2.imp ?_
        intro a b hne path hp1 hp2
        obtain ⟨pt1, hpt1, he1⟩ := List.mem_map.mp hp1
        obtain ⟨pt2, hpt2, he2⟩ := List.mem_map.mp hp2
        obtain ⟨g1, hg1⟩ := chunkSegs_shape d a.2 (pre ++ [a.1]) pt1 hpt1
        obtain ⟨g2, hg2⟩ := chunkSegs_shape d b.2 (pre ++ [b.1]) pt2 hpt2
        apply hne
        have heq : pre ++ a.1 :: g1 = pre ++ b.1 :: g2 := by
          have h1' : path = pre ++ a.1 :: g1 := by
            rw [← he1, hg1]; simp
          have h2' : path = pre ++ b.1 :: g2 := by
            rw [← he2, hg2]; simp
          rw [← h1', ← h2']
        have := List.append_cancel_left heq
        exact (List.cons.injEq .. ▸ this).1

/-- C5 (counterexample): dotted object keys make the claim fail as stated —
for `{"a": {"b": "y"}, "a.b": "x"}` the chunk `("a.b", "x")` does not
round-trip through `get_field` (which resolves `a.b` to the leaf `"y"`),
and the two distinct string leaves produce chunks with the same path. -/
theorem chunker_roundtrip_counterexample :
    ("a.b", "x") ∈ chunksOf 5 chunkCexVal ∧
    getField chunkCexVal "a.b" = some (.str "y") ∧
    getField chunkCexVal "a.b" ≠ some (.str "x") ∧
    ¬ ((chunksOf 5 chunkCexVal).map Prod.fst).Nodup := by
  have hch : chunksOf 5 chunkCexVal = [("a.b", "y"), ("a.b", "x")] := rfl
  refine ⟨by rw [hch]; simp, rfl, ?_, ?_⟩
  · intro h
    rw [show getField chunkCexVal "a.b" = some (.str "y") from rfl] at h
    injection h with h1
    injection h1 with h2
    exact absurd h2 (by decide)
  · rw [hch]
    decide

/-- C5 (amended): for JSON-like values whose object keys are unambiguous for
dot-paths (non-empty, dot-free, and — as for Python dicts — pairwise distinct
within an object), and for any recursion-depth bound `d`: every chunk's path
round-trips through `get_field` to exactly the chunk's text, chunk paths are
pairwise distinct, and every string leaf within the depth bound appears in a
chunk at its rendered dot-path — i.e. each such leaf appears in exactly one
chunk. -/
theorem chunker_field_roundtrip (d : Nat) (x : Jval) (hwk : WellKeys x) :
    (∀ pt ∈ chunksOf d x, getField x pt.1 = some (.str pt.2)) ∧
    ((chunksOf d x).map Prod.fst).Nodup ∧
    (∀ (steps : List PathStep) (t : String), LeafAt x steps t →
      steps.length < d → (joinSegs (steps.map renderStep), t) ∈ chunksOf d x) := by
  refine ⟨?_, ?_, ?_⟩
  · intro pt hpt
    rw [chunksOf] at hpt
    simp only [List.mem_map] at hpt
    obtain ⟨⟨segs, t⟩, hmem, hpt⟩ := hpt
    obtain ⟨segs', h1, h2, h3⟩ := chunkSegs_sound d x [] (segs, t) hwk hmem
    simp only [List.nil_append] at h1
    rw [← hpt]
    show getField x (joinSegs segs) = some (.str t)
    rw [getField, show segs = segs' from h1, splitPath_joinSegs segs' h3]
    exact h2
  · have hrw : (chunksOf d x).map Prod.fst =
        ((chunkSegs d [] x).map Prod.fst).map joinSegs := by
      rw [chunksOf, List.map_map, List.map_map]
      rfl
    rw [hrw]
    have hso : ∀ segs ∈ (chunkSegs d [] x).map Prod.fst, ∀ s ∈ segs, SegOk s := by
      intro segs hs
      simp only [List.mem_map] at hs
      obtain ⟨pt, hpt, he⟩ := hs
      obtain ⟨segs', h1, _, h3⟩ := chunkSegs_sound d x [] pt hwk hpt
      simp only [List.nil_append] at h1
      rw [← he, h1]
      exact h3
    exact (chunkSegs_nodup d x [] hwk).map_on (fun s1 h1 s2 h2 heq => by
      rw [← splitPath_joinSegs s1 (hso s1 h1), ← splitPath_joinSegs s2 (hso s2 h2),
        heq])
  · intro steps t hleaf hlen
    have hmem := chunkSegs_complete hleaf d [] hlen
    rw [chunksOf]
    simp only [List.mem_map]
    exact ⟨(steps.map renderStep, t), by simpa using hmem, rfl⟩

/-- Witness for `chunker_field_roundtrip` on a concrete nested value. -/
theorem chunker_field_roundtrip_witness :
    (∀ pt ∈ chunksOf 10 (Jval.obj [("outputs",
        Jval.arr [Jval.str "u", Jval.obj [("content", Jval.str "w")]])]),
      getField (Jval.obj [("outputs",
        Jval.arr [Jval.str "u", Jval.obj [("content", Jval.str "w")]])]) pt.1 =
          some (.str pt.2)) ∧
    ((chunksOf 10 (Jval.obj [("outputs",
        Jval.arr [Jval.str "u", Jval.obj [("content", Jval.str "w")]])])).map
      Prod.fst).Nodup :=
  have hwk : WellKeys (Jval.obj [("outputs",
      Jval.arr [Jval.str "u", Jval.obj [("content", Jval.str "w")]])]) :=
    .obj _ (by simp)
      (by
        intro p hp
        simp only [List.mem_singleton] at hp
        subst hp
        exact ⟨by decide, by decide⟩)
      (by
        intro p hp
        simp only [List.mem_singleton] at hp
        subst hp
        refine .arr _ ?_
        intro y hy
        rcases List.mem_cons.mp hy with h | h
        · exact h ▸ .str "u"
        · rcases List.mem_cons.mp h with h' | h'
          · refine h' ▸ .obj _ (by simp) ?_ ?_
            · intro q hq
              simp only [List.mem_singleton] at hq
              subst hq
              exact ⟨by decide, by decide⟩
            · intro q hq
              simp only [List.mem_singleton] at hq
              subst hq
              exact .str "w"
          · cases h')
  ⟨(chunker_field_roundtrip 10 _ hwk).1,
   (chunker_field_roundtrip 10 _ hwk).2.1⟩
